import Mathlib

/-!
Verification of the dependency-manifest diff tool (`git_diff_detector.py`).

The program is embedded shallowly: strings are `List Char`, Python sets of
strings are `Finset (List Char)`, Python `None`-able values are `Option`,
and code paths that can raise an uncaught exception are modelled by
`Option`-valued functions returning `none` on the raising path.  External
collaborators (the `git` subprocess and the `json.loads` library routine)
are parameters: file content at a ref is a `ContentOracle`, and the JSON
text parser is a function `Str → Option JsonVal` (returning `none` exactly
when `json.loads` would raise on that text).
-/

namespace DepDetect

/-- Strings of the source program, as lists of characters. -/
abbrev Str := List Char

/-- The whitespace characters stripped by Python `str.strip()`. -/
def isPySpace (c : Char) : Bool :=
  c = ' ' || c = '\t' || c = '\n' || c = '\r' || c = '\x0b' || c = '\x0c'

/-- Python `s.strip()`: remove leading and trailing whitespace. -/
def pyStrip (s : Str) : Str :=
  ((s.dropWhile isPySpace).reverse.dropWhile isPySpace).reverse

/-- The fixed table `MANIFEST_PATTERNS` of the source, in Python dict
insertion order (which is the iteration order of a Python 3.7+ dict). -/
def MANIFEST_PATTERNS : List (Str × List Str) :=
  [("python".toList,
     ["requirements.txt".toList, "Pipfile".toList, "Pipfile.lock".toList,
      "pyproject.toml".toList]),
   ("javascript".toList,
     ["package.json".toList, "package-lock.json".toList, "yarn.lock".toList,
      "pnpm-lock.yaml".toList]),
   ("java".toList,
     ["pom.xml".toList, "build.gradle".toList, "build.gradle.kts".toList]),
   ("csharp".toList,
     [".csproj".toList, "packages.config".toList]),
   ("php".toList,
     ["composer.json".toList, "composer.lock".toList]),
   ("cpp".toList,
     ["conanfile.txt".toList, "vcpkg.json".toList, "CMakeLists.txt".toList]),
   ("go".toList,
     ["go.mod".toList, "go.sum".toList]),
   ("ruby".toList,
     ["Gemfile".toList, "Gemfile.lock".toList]),
   ("kotlin".toList,
     ["build.gradle".toList, "build.gradle.kts".toList, "pom.xml".toList]),
   ("swift".toList,
     ["Package.swift".toList, "Podfile".toList, "Podfile.lock".toList]),
   ("rust".toList,
     ["Cargo.toml".toList, "Cargo.lock".toList])]

/-- Source `is_manifest_file`: true iff the filename ends with some
pattern of some language (Python `str.endswith` is the suffix test). -/
def is_manifest_file (filename : Str) : Bool :=
  MANIFEST_PATTERNS.any (fun lp => lp.2.any (fun pat => pat.isSuffixOf filename))

/-- Source `get_language_for_file`: the `for lang, patterns` loop
returns the first language in table order one of whose patterns is a suffix
of the filename, else `None`. -/
def get_language_for_file (filename : Str) : Option Str :=
  (MANIFEST_PATTERNS.find?
    (fun lp => lp.2.any (fun pat => pat.isSuffixOf filename))).map Prod.fst

/-- An entry of the pattern table matches a filename when some pattern of
the entry is a suffix of the filename (the spec's "ends with"). -/
def entryMatches (filename : Str) (e : Str × List Str) : Prop :=
  ∃ p ∈ e.2, p <:+ filename

instance (filename : Str) (e : Str × List Str) :
    Decidable (entryMatches filename e) := by
  unfold entryMatches; infer_instance

/-! ### Dependency parser (`parse_dependencies`) -/

/-- A parsed JSON document, the result shape of Python `json.loads`.
Objects are association lists of key/value pairs (a `json.loads` result has
distinct keys). -/
inductive JsonVal : Type where
  | obj : List (Str × JsonVal) → JsonVal
  | arr : List JsonVal → JsonVal
  | strv : Str → JsonVal
  | numv : Int → JsonVal
  | boolv : Bool → JsonVal
  | nullv : JsonVal

/-- Python dict lookup `data[key]` / membership `key in data` on a parsed
JSON object. -/
def jsonLookup (kvs : List (Str × JsonVal)) (key : Str) : Option JsonVal :=
  (kvs.find? (fun kv => kv.1 = key)).map Prod.snd

/-- Python `d.keys()` collected into a set (`deps.update(d.keys())`). -/
def jsonKeys (kvs : List (Str × JsonVal)) : Finset Str :=
  (kvs.map Prod.fst).toFinset

/-- One `if name in data: deps.update(data[name].keys())` step of the
source.  `none` models the exception raised by `.keys()` when the section
is present but not an object. -/
def sectionUpdate (kvs : List (Str × JsonVal)) (name : Str)
    (deps : Finset Str) : Option (Finset Str) :=
  match jsonLookup kvs name with
  | none => some deps
  | some (JsonVal.obj kvs2) => some (deps ∪ jsonKeys kvs2)
  | some _ => none

/-- The body of the `.json` branch of `parse_dependencies` (source lines
83-93), applied to the already-parsed document.  `none` models an
exception escaping to the `except` clause: `.keys()` on a non-object
section, `data[...]` on a non-object document, or `in` applied to a
non-container document.  On a non-object document that raises nothing the
four `in` tests are all false and the empty set is returned. -/
def jsonDeps (data : JsonVal) : Option (Finset Str) :=
  match data with
  | JsonVal.obj kvs =>
      (sectionUpdate kvs ("dependencies".toList) ∅).bind (fun d1 =>
      (sectionUpdate kvs ("devDependencies".toList) d1).bind (fun d2 =>
      (sectionUpdate kvs ("require".toList) d2).bind (fun d3 =>
      sectionUpdate kvs ("require-dev".toList) d3)))
  | JsonVal.arr vs =>
      -- `'dependencies' in <list>` is a membership test among the values;
      -- when it succeeds, indexing the list with a string raises.
      if vs.any (fun v => match v with
                  | JsonVal.strv s => s = "dependencies".toList
                  | _ => false) then none else some ∅
  | JsonVal.strv s =>
      -- `'dependencies' in <str>` is a substring test; when it succeeds,
      -- indexing the string with a string raises.
      if ("dependencies".toList) <:+: s then none else some ∅
  | _ => none  -- `'dependencies' in <int/bool/None>` raises TypeError

/-- Python `s.split(sep)[0]`: the prefix of `s` before the first occurrence
of the (non-empty) separator `sep`. -/
def cutFirst (pat : Str) : Str → Str
  | [] => []
  | c :: rest => if pat.isPrefixOf (c :: rest) then [] else c :: cutFirst pat rest

/-- The chain of five sequential `split(op)[0]` truncations of source line
99: `line.split('==')[0].split('>=')[0].split('<=')[0].split('>')[0].split('<')[0]`. -/
def opCuts (line : Str) : Str :=
  cutFirst ("<".toList) (cutFirst (">".toList) (cutFirst ("<=".toList)
    (cutFirst (">=".toList) (cutFirst ("==".toList) line))))

/-- The package-name extraction of source line 99: the five truncations
followed by `.strip()`. -/
def extractPackage (line : Str) : Str :=
  pyStrip (opCuts line)

/-- The name contributed by one raw line of a `.txt` manifest (source lines
96-101), `none` when the line contributes nothing: the stripped line is
empty or a `#` comment, or the extracted package is empty. -/
def txtLineName? (raw : Str) : Option Str :=
  let line := pyStrip raw
  if line = [] then none
  else if line.head? = some '#' then none
  else
    let package := extractPackage line
    if package = [] then none else some package

/-- The `.txt` branch of `parse_dependencies` (source lines 94-102): split
the content on newlines and collect the per-line names into a set. -/
def txtDeps (c : Str) : Finset Str :=
  ((c.splitOn '\n').filterMap txtLineName?).toFinset

/-- Source `parse_dependencies`.  `loads` stands for `json.loads`
(`loads c = none` exactly when the library would raise on text `c`);
`content` is `Option`al because callers pass the result of
`get_file_content`, and `if not content` treats `None` and `""` alike.
The returned `Bool` records whether a diagnostic was printed to standard
error by the `except` clause; the function is total — the source never
lets an exception escape this boundary. -/
def parse_dependencies (loads : Str → Option JsonVal) (filename : Str)
    (content : Option Str) : Finset Str × Bool :=
  match content with
  | none => (∅, false)
  | some c =>
    if c = [] then (∅, false)
    else if (".json".toList).isSuffixOf filename then
      match loads c with
      | none => (∅, true)
      | some data =>
        match jsonDeps data with
        | some deps => (deps, false)
        | none => (∅, true)
    else if (".txt".toList).isSuffixOf filename then
      (txtDeps c, false)
    else (∅, false)

/-! ### Spec-side description of the `.txt` line parse

The spec describes package extraction as "truncating at the first
occurrence of any of the five version-constraint operators"; the source
instead applies five sequential `split(op)[0]` operations.  The following
definitions state the spec's procedure literally, to be proved equal to
the source's. -/

/-- Index of the first occurrence of `pat` in `s` (`none` when `pat` never
occurs). -/
def firstIdx? (pat : Str) : Str → Option Nat
  | [] => if pat.isPrefixOf ([] : Str) then some 0 else none
  | c :: rest =>
    if pat.isPrefixOf (c :: rest) then some 0
    else (firstIdx? pat rest).map (· + 1)

/-- Minimum of two optional indices (`none` = no occurrence). -/
def minOpt : Option Nat → Option Nat → Option Nat
  | none, b => b
  | some a, none => some a
  | some a, some b => some (min a b)

/-- Spec-side: the index of the first occurrence of any of the five
version-constraint operators. -/
def opIdx? (s : Str) : Option Nat :=
  minOpt (firstIdx? ("==".toList) s) (minOpt (firstIdx? (">=".toList) s)
    (minOpt (firstIdx? ("<=".toList) s) (minOpt (firstIdx? (">".toList) s)
      (firstIdx? ("<".toList) s))))

/-- Spec-side: truncate a line at the first occurrence of any of the five
version-constraint operators. -/
def truncAtFirstOp (line : Str) : Str :=
  match opIdx? line with
  | some i => line.take i
  | none => line

/-- Spec-side package extraction: truncate at the first operator
occurrence, then trim. -/
def specExtractPackage (line : Str) : Str :=
  pyStrip (truncAtFirstOp line)

/-- Spec-side per-line name: trim the line, drop empty lines and `#`
comments, extract the package, discard names that become empty. -/
def specTxtLineName? (raw : Str) : Option Str :=
  let line := pyStrip raw
  if line = [] then none
  else if line.head? = some '#' then none
  else
    let package := specExtractPackage line
    if package = [] then none else some package

/-- Spec-side `.txt` parse: split on newlines, collect per-line names into
a set. -/
def specTxtDeps (c : Str) : Finset Str :=
  ((c.splitOn '\n').filterMap specTxtLineName?).toFinset

/-- Does one of the five operators occur at the very start of `s`? -/
def anyOpAtHead (s : Str) : Bool :=
  ("==".toList).isPrefixOf s || (">=".toList).isPrefixOf s ||
  ("<=".toList).isPrefixOf s || (">".toList).isPrefixOf s ||
  ("<".toList).isPrefixOf s

/-- Character scanner equivalent of both truncation procedures: stop at
the first position where an operator starts. -/
def scanOps : Str → Str
  | [] => []
  | c :: rest => if anyOpAtHead (c :: rest) then [] else c :: scanOps rest

/-! ### The JSON branch against the spec's description -/

/-- Spec-side: the key set contributed by one of the four dependency
sections — the section's keys when it is present (as an object), nothing
when absent. -/
def sectionKeys (kvs : List (Str × JsonVal)) (name : Str) : Finset Str :=
  match jsonLookup kvs name with
  | some (JsonVal.obj kvs2) => jsonKeys kvs2
  | _ => ∅

/-- Spec-side: the union of the key sets of whichever of the four
dependency sections are present in the document. -/
def specJsonDeps (kvs : List (Str × JsonVal)) : Finset Str :=
  sectionKeys kvs ("dependencies".toList) ∪
  sectionKeys kvs ("devDependencies".toList) ∪
  sectionKeys kvs ("require".toList) ∪
  sectionKeys kvs ("require-dev".toList)

/-- A document in which every present dependency section is an object
(the only shape for which the spec's "key set of the section" is
defined). -/
def sectionsAreObjects (kvs : List (Str × JsonVal)) : Prop :=
  ∀ name ∈ [("dependencies".toList : Str), "devDependencies".toList,
      "require".toList, "require-dev".toList],
    ∀ v, jsonLookup kvs name = some v → ∃ kvs2, v = JsonVal.obj kvs2

/-! ### Change records and the git diff loop -/

/-- One classified changed file, as produced by `get_git_diff`:
`old_filename` is present exactly on rename records. -/
structure ChangeRecord where
  filename : Str
  status : Str
  language : Option Str
  old_filename : Option Str
deriving DecidableEq

/-- The per-line body of `get_git_diff`'s loop (source lines 120-139),
applied to `parts = line.split("\t")`.  The outer `Option` is the
exception level (`none` = `IndexError` on a malformed line, which real
`git` output never produces); the inner `Option` is `none` when the line
is filtered out because no name matches a manifest pattern. -/
def processParts (parts : List Str) : Option (Option ChangeRecord) :=
  match parts.head? with
  | none => none
  | some status =>
    if status.head? = some 'R' then
      match parts[1]?, parts[2]? with
      | some old_filename, some new_filename =>
        if is_manifest_file old_filename || is_manifest_file new_filename then
          some (some ⟨new_filename, "R".toList,
            get_language_for_file new_filename, some old_filename⟩)
        else some none
      | _, _ => none
    else
      match parts[1]? with
      | some filename =>
        if is_manifest_file filename then
          some (some ⟨filename, status, get_language_for_file filename, none⟩)
        else some none
      | none => none

/-! ### Change analyzer (`analyze_dependencies`) -/

/-- The external `git show` of `get_file_content`: the content of a path
as committed on a branch, `none` when the path does not exist there. -/
abbrev ContentOracle := Str → Str → Option Str

/-- One per-file delta appended to `changes_by_language[lang]`. -/
structure DependencyDelta where
  filename : Str
  status : Str
  old_filename : Option Str
  new_deps : Finset Str
  removed_deps : Finset Str
deriving DecidableEq

/-- The per-record body of `analyze_dependencies` (source lines 151-198):
the delta appended for one changed file.  The outer `Option` is the
exception level (`none` = `KeyError` when a rename record carries no
`old_filename`); the inner `Option` is `none` when the status is none of
`A`/`D`/`M`/`R` and nothing is appended. -/
def analyzeFile (loads : Str → Option JsonVal) (oracle : ContentOracle)
    (base_branch target_branch : Str) (r : ChangeRecord) :
    Option (Option DependencyDelta) :=
  if r.status = "A".toList then
    some (some ⟨r.filename, r.status, none,
      (parse_dependencies loads r.filename
        (oracle r.filename target_branch)).1, ∅⟩)
  else if r.status = "D".toList then
    some (some ⟨r.filename, r.status, none, ∅,
      (parse_dependencies loads r.filename
        (oracle r.filename base_branch)).1⟩)
  else if r.status = "M".toList then
    let base_deps := (parse_dependencies loads r.filename
      (oracle r.filename base_branch)).1
    let target_deps := (parse_dependencies loads r.filename
      (oracle r.filename target_branch)).1
    some (some ⟨r.filename, r.status, none,
      target_deps \ base_deps, base_deps \ target_deps⟩)
  else if r.status = "R".toList then
    match r.old_filename with
    | none => none
    | some old =>
      let base_deps := (parse_dependencies loads old (oracle old base_branch)).1
      let target_deps := (parse_dependencies loads r.filename
        (oracle r.filename target_branch)).1
      some (some ⟨r.filename, r.status, some old,
        target_deps \ base_deps, base_deps \ target_deps⟩)
  else some none

/-- The dict `changes_by_language`, in Python insertion order. -/
abbrev LangMap := List (Option Str × List DependencyDelta)

/-- Python `if lang not in changes_by_language: changes_by_language[lang] = []`. -/
def ensureKey (m : LangMap) (lang : Option Str) : LangMap :=
  if m.any (fun e => e.1 = lang) then m else m ++ [(lang, [])]

/-- Python `changes_by_language[lang].append(d)`. -/
def appendDelta (m : LangMap) (lang : Option Str) (d : DependencyDelta) :
    LangMap :=
  m.map (fun e => if e.1 = lang then (e.1, e.2 ++ [d]) else e)

/-- One iteration of the `for file_info in changed_files` loop. -/
def analyzeStep (loads : Str → Option JsonVal) (oracle : ContentOracle)
    (base_branch target_branch : Str) (m : LangMap) (r : ChangeRecord) :
    Option LangMap :=
  match analyzeFile loads oracle base_branch target_branch r with
  | none => none
  | some none => some (ensureKey m r.language)
  | some (some d) => some (appendDelta (ensureKey m r.language) r.language d)

/-- Source `analyze_dependencies`: fold the per-record step over the
changed files, starting from the empty dict. -/
def analyze_dependencies (loads : Str → Option JsonVal)
    (oracle : ContentOracle) (changed_files : List ChangeRecord)
    (base_branch target_branch : Str) : Option LangMap :=
  changed_files.foldlM (analyzeStep loads oracle base_branch target_branch) []

/-- Spec-side: the before-snapshot dependency set of a delta, per the
analyzer table — empty for Added, the old path's base-branch content for
Renamed, the path's base-branch content otherwise. -/
def beforeSet (loads : Str → Option JsonVal) (oracle : ContentOracle)
    (base_branch : Str) (d : DependencyDelta) : Finset Str :=
  if d.status = "A".toList then ∅
  else if d.status = "R".toList then
    match d.old_filename with
    | some old => (parse_dependencies loads old (oracle old base_branch)).1
    | none => ∅
  else (parse_dependencies loads d.filename (oracle d.filename base_branch)).1

/-- Spec-side: the after-snapshot dependency set of a delta, per the
analyzer table — empty for Deleted, the path's target-branch content
otherwise. -/
def afterSet (loads : Str → Option JsonVal) (oracle : ContentOracle)
    (target_branch : Str) (d : DependencyDelta) : Finset Str :=
  if d.status = "D".toList then ∅
  else (parse_dependencies loads d.filename (oracle d.filename target_branch)).1

/-- A delta occurs somewhere in the per-language collection. -/
def deltaIn (m : LangMap) (d : DependencyDelta) : Prop :=
  ∃ e ∈ m, d ∈ e.2

/-- A concrete content oracle: `requirements.txt` holds `foo==1.0` on
`main` and `foo==2.0\nbaz==1.0` on any other branch. -/
def c1Oracle : ContentOracle := fun _ br =>
  if br = "main".toList then some ("foo==1.0\n".toList)
  else some ("foo==2.0\nbaz==1.0\n".toList)

/-- The delta the analyzer produces for the modified `requirements.txt`. -/
def c1Delta : DependencyDelta :=
  ⟨"requirements.txt".toList, "M".toList, none, {"baz".toList}, ∅⟩

/-- The classified modified-file record for the C1 witness scenario. -/
def c1Record : ChangeRecord :=
  ⟨"requirements.txt".toList, "M".toList, some ("python".toList), none⟩

/-! ### Reporter -/

/-- Python `sorted` on a set of strings: the lexicographically sorted list
of its elements (string comparison is code-point lexicographic). -/
def sortedNames (s : Finset Str) : List Str :=
  s.sort (· ≤ ·)

/-- Python dict assignment `d[k] = v` on an insertion-ordered dict:
replace the value at an existing key in place, else append. -/
def assocUpdate {α β : Type} [DecidableEq α] (m : List (α × β)) (k : α)
    (v : β) : List (α × β) :=
  if m.any (fun e => e.1 = k) then
    m.map (fun e => if e.1 = k then (k, v) else e)
  else m ++ [(k, v)]

/-- The value rendered for one file in JSON mode: the sorted name lists. -/
structure FileDeps where
  new_deps : List Str
  removed_deps : List Str
deriving DecidableEq

/-- One `lang_dict[filename] = {...}` assignment of the JSON render
(source lines 230-233). -/
def langDictStep (d : List (Str × FileDeps)) (fi : DependencyDelta) :
    List (Str × FileDeps) :=
  assocUpdate d fi.filename
    ⟨sortedNames fi.new_deps, sortedNames fi.removed_deps⟩

/-- The inner `lang_dict` loop of the JSON render (source lines 228-233). -/
def langDict (files : List DependencyDelta) : List (Str × FileDeps) :=
  files.foldl langDictStep []

/-- One iteration of the JSON render's outer loop (source lines 227-235):
build `lang_dict` and assign it under the language key only when it is
non-empty (`if lang_dict:`). -/
def jsonStep (result : List (Option Str × List (Str × FileDeps)))
    (e : Option Str × List DependencyDelta) :
    List (Option Str × List (Str × FileDeps)) :=
  if langDict e.2 ≠ [] then assocUpdate result e.1 (langDict e.2) else result

/-- The JSON render of `main` (source lines 226-236): the structure that
`json.dumps` receives. -/
def renderJSON (m : LangMap) : List (Option Str × List (Str × FileDeps)) :=
  m.foldl jsonStep []

/-- Structurally recursive insertion into a sorted list. -/
def insertSorted {α : Type} (le : α → α → Bool) (x : α) :
    List α → List α
  | [] => [x]
  | y :: ys => if le x y then x :: y :: ys else y :: insertSorted le x ys

/-- Insertion sort; models Python `sorted` for the total orders used
here. -/
def sortBy {α : Type} (le : α → α → Bool) : List α → List α
  | [] => []
  | x :: xs => insertSorted le x (sortBy le xs)

/-- The comparison `sorted(changes_by_language.items())` performs on dict
items: compare the language keys.  Only the `some`/`some` case is ever
consulted — comparing a `None` key raises, which `renderText` checks
separately before sorting. -/
def itemLE (a b : Option Str × List DependencyDelta) : Bool :=
  match a.1, b.1 with
  | some s, some t => decide (s ≤ t)
  | _, _ => true

/-- Python `lang.upper()`. -/
def pyUpper (s : Str) : Str := s.map Char.toUpper

/-- The indented `+`/`-` dependency lines for one file (source lines
252-259). -/
def renderDepsLines (fi : DependencyDelta) : List Str :=
  (if fi.new_deps ≠ ∅ then
    ("    New dependencies:".toList) ::
      (sortedNames fi.new_deps).map (fun dep => "      + ".toList ++ dep)
   else []) ++
  (if fi.removed_deps ≠ ∅ then
    ("    Removed dependencies:".toList) ::
      (sortedNames fi.removed_deps).map (fun dep => "      - ".toList ++ dep)
   else [])

/-- The status line for one file (source lines 245-251); `none` models the
`KeyError` when a rename delta carries no `old_filename`. -/
def renderStatusLine (fi : DependencyDelta) : Option Str :=
  if fi.status = "R".toList then
    match fi.old_filename with
    | none => none
    | some old =>
      some ("  ".toList ++ fi.status ++ "\t".toList ++ old ++
        " -> ".toList ++ fi.filename)
  else
    some ("  ".toList ++ fi.status ++ "\t".toList ++ fi.filename)

/-- All text lines printed for one file. -/
def renderFileBlock (fi : DependencyDelta) : Option (List Str) :=
  (renderStatusLine fi).map (fun l => l :: renderDepsLines fi)

/-- One language section of the text render (source lines 240-259):
`continue` on an empty file list; `none` models the `AttributeError` that
`lang.upper()` raises on a `None` language tag. -/
def renderLangBlock (e : Option Str × List DependencyDelta) :
    Option (List Str) :=
  if e.2 = [] then some []
  else
    match e.1 with
    | none => none
    | some lang =>
      (e.2.mapM renderFileBlock).map (fun blocks =>
        (('\n' :: pyUpper lang) ++ ":".toList) :: blocks.flatten)

/-- The text render of `main` (source lines 238-259).  `none` models an
uncaught exception: `sorted` raises a `TypeError` when it compares a
`None` key with another key (any `None` key among two or more), and a
`None` key reaching the loop raises at `lang.upper()`. -/
def renderText (target_branch base_branch : Str) (m : LangMap) :
    Option (List Str) :=
  if 2 ≤ m.length ∧ m.any (fun e => e.1 = none) then none
  else
    ((sortBy itemLE m).mapM renderLangBlock).map (fun blocks =>
      ("Changes in dependency manifest files (comparing ".toList ++
        target_branch ++ " against ".toList ++ base_branch ++ "):".toList) ::
      (List.replicate 50 '-') :: blocks.flatten)

/-! ### Command-line argument handling -/

/-- Python `args.remove(x)`: drop the first occurrence. -/
def removeFirst (x : Str) : List Str → List Str
  | [] => []
  | a :: rest => if a = x then rest else a :: removeFirst x rest

/-- The outcome of `main`'s argument handling (source lines 203-216). -/
inductive CliOutcome : Type where
  | usage : Nat → Str → CliOutcome
  | run : Bool → Str → Option Str → CliOutcome
deriving DecidableEq

/-- The usage text printed to standard output. -/
def usageMsg : Str :=
  "Usage: script.py [target_branch] [base_branch] [--json]".toList

/-- Python `if '--json' in args: output_json = True; args.remove('--json')`. -/
def stripJsonFlag (args : List Str) : Bool × List Str :=
  if ("--json".toList) ∈ args then
    (true, removeFirst ("--json".toList) args)
  else (false, args)

/-- Argument handling of `main`: `usage code msg` prints `msg` to standard
output and exits with `code`; `run json target base` proceeds (base `none`
means the current checkout's branch is queried). -/
def cliParse (args : List Str) : CliOutcome :=
  let p := stripJsonFlag args
  match p.2 with
  | [] => CliOutcome.usage 1 usageMsg
  | [t] => CliOutcome.run p.1 t none
  | t :: b :: _ => CliOutcome.run p.1 t (some b)

instance : Nonempty FileDeps := ⟨⟨[], []⟩⟩

instance : Nonempty (List (Str × FileDeps)) := ⟨[]⟩

/-- The analyzer output of the C2 counterexample run: one modified file
whose dependency delta is empty in both directions. -/
def c2Map : LangMap :=
  [(some ("python".toList),
    [⟨"requirements.txt".toList, "M".toList, none, ∅, ∅⟩])]

/-! ### Theorems -/

theorem nil_isPrefixOf (l : Str) : (([] : Str)).isPrefixOf l = true := by
  cases l <;> rfl

theorem cons_isPrefixOf_cons (a c : Char) (pat rest : Str) :
    ((a :: pat).isPrefixOf (c :: rest)) = ((a == c) && pat.isPrefixOf rest) := rfl

theorem single_isPrefixOf_cons (a c : Char) (rest : Str) :
    (([a] : Str).isPrefixOf (c :: rest)) = (a == c) := by
  rw [cons_isPrefixOf_cons, nil_isPrefixOf, Bool.and_true]

theorem cutFirst_nil (pat : Str) : cutFirst pat [] = [] := rfl

theorem cutFirst_cons_stop {pat : Str} {c : Char} {rest : Str}
    (h : pat.isPrefixOf (c :: rest) = true) :
    cutFirst pat (c :: rest) = [] := by
  simp [cutFirst, h]

theorem cutFirst_cons_go {pat : Str} {c : Char} {rest : Str}
    (h : pat.isPrefixOf (c :: rest) = false) :
    cutFirst pat (c :: rest) = c :: cutFirst pat rest := by
  simp [cutFirst, h]

theorem opCuts_eq_scanOps (s : Str) : opCuts s = scanOps s := by
  induction s with
  | nil => rfl
  | cons c rest ih =>
    simp only [opCuts,
      show ("==".toList : Str) = ['=', '='] from rfl,
      show (">=".toList : Str) = ['>', '='] from rfl,
      show ("<=".toList : Str) = ['<', '='] from rfl,
      show (">".toList : Str) = ['>'] from rfl,
      show ("<".toList : Str) = ['<'] from rfl] at ih ⊢
    by_cases hstop : anyOpAtHead (c :: rest) = true
    · rw [scanOps, if_pos hstop]
      have htri : c = '>' ∨ c = '<' ∨
          ((['=', '='] : Str)).isPrefixOf (c :: rest) = true := by
        simp only [anyOpAtHead, Bool.or_eq_true,
          show ("==".toList : Str) = ['=', '='] from rfl,
          show (">=".toList : Str) = ['>', '='] from rfl,
          show ("<=".toList : Str) = ['<', '='] from rfl,
          show (">".toList : Str) = ['>'] from rfl,
          show ("<".toList : Str) = ['<'] from rfl] at hstop
        rcases hstop with ((((h0 | h1) | h2) | h3) | h4)
        · exact Or.inr (Or.inr h0)
        · rw [cons_isPrefixOf_cons, Bool.and_eq_true, beq_iff_eq] at h1
          exact Or.inl h1.1.symm
        · rw [cons_isPrefixOf_cons, Bool.and_eq_true, beq_iff_eq] at h2
          exact Or.inr (Or.inl h2.1.symm)
        · rw [single_isPrefixOf_cons, beq_iff_eq] at h3
          exact Or.inl h3.symm
        · rw [single_isPrefixOf_cons, beq_iff_eq] at h4
          exact Or.inr (Or.inl h4.symm)
      rcases htri with hc | hc | h0
      · subst hc
        have g1 : ((['=', '='] : Str)).isPrefixOf ('>' :: rest) = false := by
          rw [cons_isPrefixOf_cons, show ('=' == '>') = false from rfl,
            Bool.false_and]
        rw [cutFirst_cons_go g1]
        have g2 : ((['>', '='] : Str)).isPrefixOf
            ('>' :: cutFirst ['=', '='] rest) =
            ((['='] : Str)).isPrefixOf (cutFirst ['=', '='] rest) := by
          rw [cons_isPrefixOf_cons, show ('>' == '>') = true from rfl,
            Bool.true_and]
        cases hx : ((['='] : Str)).isPrefixOf (cutFirst ['=', '='] rest) with
        | true => rw [cutFirst_cons_stop (g2.trans hx)]; rfl
        | false =>
          rw [cutFirst_cons_go (g2.trans hx)]
          have g3 : ((['<', '='] : Str)).isPrefixOf
              ('>' :: cutFirst ['>', '='] (cutFirst ['=', '='] rest)) = false := by
            rw [cons_isPrefixOf_cons, show ('<' == '>') = false from rfl,
              Bool.false_and]
          rw [cutFirst_cons_go g3]
          have g4 : ((['>'] : Str)).isPrefixOf
              ('>' :: cutFirst ['<', '='] (cutFirst ['>', '=']
                (cutFirst ['=', '='] rest))) = true := by
            rw [single_isPrefixOf_cons]; rfl
          rw [cutFirst_cons_stop g4]; rfl
      · subst hc
        have g1 : ((['=', '='] : Str)).isPrefixOf ('<' :: rest) = false := by
          rw [cons_isPrefixOf_cons, show ('=' == '<') = false from rfl,
            Bool.false_and]
        rw [cutFirst_cons_go g1]
        have g2 : ((['>', '='] : Str)).isPrefixOf
            ('<' :: cutFirst ['=', '='] rest) = false := by
          rw [cons_isPrefixOf_cons, show ('>' == '<') = false from rfl,
            Bool.false_and]
        rw [cutFirst_cons_go g2]
        have g3 : ((['<', '='] : Str)).isPrefixOf
            ('<' :: cutFirst ['>', '='] (cutFirst ['=', '='] rest)) =
            ((['='] : Str)).isPrefixOf
              (cutFirst ['>', '='] (cutFirst ['=', '='] rest)) := by
          rw [cons_isPrefixOf_cons, show ('<' == '<') = true from rfl,
            Bool.true_and]
        cases hx : ((['='] : Str)).isPrefixOf
            (cutFirst ['>', '='] (cutFirst ['=', '='] rest)) with
        | true => rw [cutFirst_cons_stop (g3.trans hx)]; rfl
        | false =>
          rw [cutFirst_cons_go (g3.trans hx)]
          have g4 : ((['>'] : Str)).isPrefixOf
              ('<' :: cutFirst ['<', '='] (cutFirst ['>', '=']
                (cutFirst ['=', '='] rest))) = false := by
            rw [single_isPrefixOf_cons]; rfl
          rw [cutFirst_cons_go g4]
          have g5 : ((['<'] : Str)).isPrefixOf
              ('<' :: cutFirst ['>'] (cutFirst ['<', '='] (cutFirst ['>', '=']
                (cutFirst ['=', '='] rest)))) = true := by
            rw [single_isPrefixOf_cons]; rfl
          rw [cutFirst_cons_stop g5]
      · rw [cutFirst_cons_stop h0]; rfl
    · have hstop' : anyOpAtHead (c :: rest) = false :=
        Bool.not_eq_true _ ▸ eq_false_of_ne_true hstop
      have hfive : ((['=', '='] : Str)).isPrefixOf (c :: rest) = false ∧
          ((['>', '='] : Str)).isPrefixOf (c :: rest) = false ∧
          ((['<', '='] : Str)).isPrefixOf (c :: rest) = false ∧
          ((['>'] : Str)).isPrefixOf (c :: rest) = false ∧
          ((['<'] : Str)).isPrefixOf (c :: rest) = false := by
        have := hstop'
        simp only [anyOpAtHead, Bool.or_eq_false_iff,
          show ("==".toList : Str) = ['=', '='] from rfl,
          show (">=".toList : Str) = ['>', '='] from rfl,
          show ("<=".toList : Str) = ['<', '='] from rfl,
          show (">".toList : Str) = ['>'] from rfl,
          show ("<".toList : Str) = ['<'] from rfl] at this
        exact ⟨this.1.1.1.1, this.1.1.1.2, this.1.1.2, this.1.2, this.2⟩
      obtain ⟨h0, h1, h2, h3, h4⟩ := hfive
      have hgtc : ('>' == c) = false := by
        rw [single_isPrefixOf_cons] at h3; exact h3
      have hltc : ('<' == c) = false := by
        rw [single_isPrefixOf_cons] at h4; exact h4
      rw [cutFirst_cons_go h0]
      rw [cutFirst_cons_go (show ((['>', '='] : Str)).isPrefixOf
        (c :: cutFirst ['=', '='] rest) = false by
          rw [cons_isPrefixOf_cons, hgtc, Bool.false_and])]
      rw [cutFirst_cons_go (show ((['<', '='] : Str)).isPrefixOf
        (c :: cutFirst ['>', '='] (cutFirst ['=', '='] rest)) = false by
          rw [cons_isPrefixOf_cons, hltc, Bool.false_and])]
      rw [cutFirst_cons_go (show ((['>'] : Str)).isPrefixOf
        (c :: cutFirst ['<', '='] (cutFirst ['>', '=']
          (cutFirst ['=', '='] rest))) = false by
          rw [single_isPrefixOf_cons]; exact hgtc)]
      rw [cutFirst_cons_go (show ((['<'] : Str)).isPrefixOf
        (c :: cutFirst ['>'] (cutFirst ['<', '='] (cutFirst ['>', '=']
          (cutFirst ['=', '='] rest)))) = false by
          rw [single_isPrefixOf_cons]; exact hltc)]
      rw [scanOps, if_neg hstop, ih]

theorem minOpt_map_succ (a b : Option Nat) :
    minOpt (a.map (· + 1)) (b.map (· + 1)) = (minOpt a b).map (· + 1) := by
  cases a <;> cases b <;> simp [minOpt]
  omega

theorem minOpt_zero_left (b : Option Nat) : minOpt (some 0) b = some 0 := by
  cases b <;> simp [minOpt]

theorem minOpt_zero_right (a : Option Nat) : minOpt a (some 0) = some 0 := by
  cases a <;> simp [minOpt]

theorem firstIdx?_cons (pat : Str) (c : Char) (rest : Str) :
    firstIdx? pat (c :: rest) =
      if pat.isPrefixOf (c :: rest) then some 0
      else (firstIdx? pat rest).map (· + 1) := rfl

theorem opIdx?_cons (c : Char) (rest : Str) :
    opIdx? (c :: rest) =
      if anyOpAtHead (c :: rest) then some 0
      else (opIdx? rest).map (· + 1) := by
  unfold opIdx? anyOpAtHead
  rw [firstIdx?_cons, firstIdx?_cons, firstIdx?_cons, firstIdx?_cons,
    firstIdx?_cons]
  cases hb0 : ("==".toList : Str).isPrefixOf (c :: rest) <;>
    cases hb1 : (">=".toList : Str).isPrefixOf (c :: rest) <;>
      cases hb2 : ("<=".toList : Str).isPrefixOf (c :: rest) <;>
        cases hb3 : (">".toList : Str).isPrefixOf (c :: rest) <;>
          cases hb4 : ("<".toList : Str).isPrefixOf (c :: rest) <;>
            simp [minOpt_zero_left, minOpt_zero_right, minOpt_map_succ]

theorem truncAtFirstOp_eq_scanOps (s : Str) : truncAtFirstOp s = scanOps s := by
  induction s with
  | nil => rfl
  | cons c rest ih =>
    simp only [truncAtFirstOp, opIdx?_cons]
    by_cases hstop : anyOpAtHead (c :: rest) = true
    · rw [if_pos hstop, scanOps, if_pos hstop]
      rfl
    · rw [if_neg hstop, scanOps, if_neg hstop, ← ih]
      simp only [truncAtFirstOp]
      cases hrest : opIdx? rest with
      | none => simp
      | some i => simp [List.take]

theorem extractPackage_eq_spec (line : Str) :
    extractPackage line = specExtractPackage line := by
  unfold extractPackage specExtractPackage
  rw [opCuts_eq_scanOps, ← truncAtFirstOp_eq_scanOps]

theorem txtLineName?_eq_spec (raw : Str) :
    txtLineName? raw = specTxtLineName? raw := by
  simp only [txtLineName?, specTxtLineName?, extractPackage_eq_spec]

theorem txtDeps_eq_spec (c : Str) : txtDeps c = specTxtDeps c := by
  have h : txtLineName? = specTxtLineName? := funext txtLineName?_eq_spec
  rw [txtDeps, specTxtDeps, h]

theorem suffix_getLast? {p f : Str} (h : p <:+ f) (hp : p ≠ []) :
    f.getLast? = p.getLast? := by
  obtain ⟨t, rfl⟩ := h
  exact List.getLast?_append_of_ne_nil t hp

theorem parse_dependencies_txt_branch (loads : Str → Option JsonVal)
    (fn c : Str) (hj : ¬ ((".json".toList : Str) <:+ fn))
    (ht : (".txt".toList : Str) <:+ fn) (hc : c ≠ []) :
    parse_dependencies loads fn (some c) = (txtDeps c, false) := by
  unfold parse_dependencies
  simp [hc, List.isSuffixOf_iff_suffix]
  rw [if_neg (show ¬ ((['.', 'j', 's', 'o', 'n'] : Str) <:+ fn) by
        simpa using hj),
      if_pos (show (['.', 't', 'x', 't'] : Str) <:+ fn by simpa using ht)]

/-- C3: for every `.txt` manifest content, `parse_dependencies` returns
exactly the set the spec describes: split on newlines, trim, drop empties
and `#` comments, truncate each line at the first occurrence of any of the
five operators `==` `>=` `<=` `>` `<`, trim, discard empty names.  In
particular `"foo==1.2.3\n# comment\nbar>=2.0\n\n"` parses to
`{foo, bar}`. -/
theorem parse_txt_matches_spec (loads : Str → Option JsonVal)
    (filename : Str) (content : Str)
    (h : (".txt".toList : Str) <:+ filename) :
    parse_dependencies loads filename (some content) =
      (specTxtDeps content, false) ∧
    parse_dependencies loads ("requirements.txt".toList)
      (some ("foo==1.2.3\n# comment\nbar>=2.0\n\n".toList)) =
      ({"foo".toList, "bar".toList}, false) := by
  constructor
  · have hj : ¬ ((".json".toList : Str) <:+ filename) := by
      intro hjs
      have h1 := suffix_getLast? h (by decide)
      have h2 := suffix_getLast? hjs (by decide)
      rw [h1] at h2
      exact absurd h2 (by decide)
    by_cases hc : content = []
    · subst hc
      have : parse_dependencies loads filename (some []) = (∅, false) := by
        unfold parse_dependencies
        simp
      rw [this]
      exact congrArg (fun s => (s, false)) (by decide)
    · rw [parse_dependencies_txt_branch loads filename content hj h hc,
        txtDeps_eq_spec]
  · rw [parse_dependencies_txt_branch loads ("requirements.txt".toList)
      ("foo==1.2.3\n# comment\nbar>=2.0\n\n".toList)
      (by decide) (by decide) (by decide)]
    exact congrArg (fun s => (s, false)) (by decide)

/-- Witness for C3 at a concrete `.txt` filename and content. -/
theorem parse_txt_matches_spec_witness :
    parse_dependencies (fun _ => none) ("requirements.txt".toList)
      (some ("abc".toList)) = (specTxtDeps ("abc".toList), false) ∧
    parse_dependencies (fun _ => none) ("requirements.txt".toList)
      (some ("foo==1.2.3\n# comment\nbar>=2.0\n\n".toList)) =
      ({"foo".toList, "bar".toList}, false) :=
  parse_txt_matches_spec (fun _ => none) ("requirements.txt".toList)
    ("abc".toList) (by decide)

theorem sectionUpdate_ok (kvs : List (Str × JsonVal)) (name : Str)
    (d : Finset Str)
    (hs : ∀ v, jsonLookup kvs name = some v → ∃ kvs2, v = JsonVal.obj kvs2) :
    sectionUpdate kvs name d = some (d ∪ sectionKeys kvs name) := by
  unfold sectionUpdate sectionKeys
  cases h : jsonLookup kvs name with
  | none => simp
  | some v =>
    obtain ⟨kvs2, rfl⟩ := hs v h
    simp

theorem jsonDeps_obj_ok (kvs : List (Str × JsonVal))
    (hs : sectionsAreObjects kvs) :
    jsonDeps (JsonVal.obj kvs) = some (specJsonDeps kvs) := by
  have e : jsonDeps (JsonVal.obj kvs) =
      (sectionUpdate kvs ("dependencies".toList) ∅).bind (fun d1 =>
      (sectionUpdate kvs ("devDependencies".toList) d1).bind (fun d2 =>
      (sectionUpdate kvs ("require".toList) d2).bind (fun d3 =>
      sectionUpdate kvs ("require-dev".toList) d3))) := rfl
  rw [e]
  rw [sectionUpdate_ok kvs _ _ (hs _ (by simp)), Option.some_bind]
  rw [sectionUpdate_ok kvs _ _ (hs _ (by simp)), Option.some_bind]
  rw [sectionUpdate_ok kvs _ _ (hs _ (by simp)), Option.some_bind]
  rw [sectionUpdate_ok kvs _ _ (hs _ (by simp))]
  rw [specJsonDeps]
  simp [Finset.union_assoc]

theorem parse_dependencies_json_branch (loads : Str → Option JsonVal)
    (fn c : Str) (hj : (".json".toList : Str) <:+ fn) (hc : c ≠ []) :
    parse_dependencies loads fn (some c) =
      match loads c with
      | none => (∅, true)
      | some data =>
        match jsonDeps data with
        | some deps => (deps, false)
        | none => (∅, true) := by
  simp only [parse_dependencies]
  rw [if_neg hc, if_pos (List.isSuffixOf_iff_suffix.mpr hj)]

/-- C4: for every `.json` manifest whose content parses as a key/value
document (each present dependency section being an object, the only shape
whose keys the spec speaks of), `parse_dependencies` returns the union of
the key sets of whichever of the four sections `dependencies`,
`devDependencies`, `require`, `require-dev` are present. -/
theorem parse_json_matches_spec (loads : Str → Option JsonVal)
    (filename content : Str) (kvs : List (Str × JsonVal))
    (hj : (".json".toList : Str) <:+ filename) (hc : content ≠ [])
    (hload : loads content = some (JsonVal.obj kvs))
    (hs : sectionsAreObjects kvs) :
    parse_dependencies loads filename (some content) =
      (specJsonDeps kvs, false) := by
  rw [parse_dependencies_json_branch loads filename content hj hc, hload]
  show (match jsonDeps (JsonVal.obj kvs) with
        | some deps => (deps, false)
        | none => ((∅ : Finset Str), true)) = (specJsonDeps kvs, false)
  rw [jsonDeps_obj_ok kvs hs]

/-- Witness for C4: a document whose `dependencies` section is
`{"a":"1.0","b":"2.0"}` parses to `{a, b}`. -/
theorem parse_json_matches_spec_witness :
    parse_dependencies
      (fun _ => some (JsonVal.obj
        [("dependencies".toList,
          JsonVal.obj [("a".toList, JsonVal.strv ("1.0".toList)),
                       ("b".toList, JsonVal.strv ("2.0".toList))])]))
      ("package.json".toList) (some ("x".toList)) =
      ({"a".toList, "b".toList}, false) := by
  rw [parse_json_matches_spec
    (fun _ => some (JsonVal.obj
      [("dependencies".toList,
        JsonVal.obj [("a".toList, JsonVal.strv ("1.0".toList)),
                     ("b".toList, JsonVal.strv ("2.0".toList))])]))
    ("package.json".toList) ("x".toList)
    [("dependencies".toList,
      JsonVal.obj [("a".toList, JsonVal.strv ("1.0".toList)),
                   ("b".toList, JsonVal.strv ("2.0".toList))])]
    (by decide) (by decide) rfl ?hs]
  case hs =>
    intro name hname v hv
    simp only [List.mem_cons, List.not_mem_nil, or_false] at hname
    rcases hname with rfl | rfl | rfl | rfl <;> simp [jsonLookup] at hv
    exact ⟨_, hv.symm⟩
  exact congrArg (fun s => (s, false)) (by decide)

/-- C8: a malformed structured document is caught at the parse boundary —
diagnostic to standard error (the `true` flag), empty set returned, no
exception; absent content (`None`) and empty content parse to the empty
set with no diagnostic. -/
theorem parse_failure_and_absence (loads : Str → Option JsonVal)
    (filename c : Str) :
    ((".json".toList : Str) <:+ filename → c ≠ [] → loads c = none →
      parse_dependencies loads filename (some c) = (∅, true)) ∧
    parse_dependencies loads filename none = (∅, false) ∧
    parse_dependencies loads filename (some []) = (∅, false) := by
  refine ⟨?_, rfl, ?_⟩
  · intro hj hc hload
    rw [parse_dependencies_json_branch loads filename c hj hc, hload]
  · unfold parse_dependencies
    simp

/-- Witness for C8 at a concrete malformed `.json` input. -/
theorem parse_failure_and_absence_witness :
    (parse_dependencies (fun _ => none) ("package.json".toList)
      (some ("x".toList)) = (∅, true)) ∧
    parse_dependencies (fun _ => none) ("package.json".toList) none =
      (∅, false) ∧
    parse_dependencies (fun _ => none) ("package.json".toList) (some []) =
      (∅, false) := by
  have h := parse_failure_and_absence (fun _ => none)
    ("package.json".toList) ("x".toList)
  exact ⟨h.1 (by decide) (by decide) rfl, h.2.1, h.2.2⟩

theorem finset_sdiff_inter_sdiff (s t : Finset Str) : (s \ t) ∩ (t \ s) = ∅ := by
  ext x; simp; tauto

/-- Every delta produced by `analyzeFile` satisfies the analyzer table:
`new_deps = after − before`, `removed_deps = before − after`, the two are
disjoint, and they are empty for Added and Deleted files respectively. -/
theorem analyzeFile_delta_spec (loads : Str → Option JsonVal)
    (oracle : ContentOracle) (base_branch target_branch : Str)
    (r : ChangeRecord) (d : DependencyDelta)
    (h : analyzeFile loads oracle base_branch target_branch r =
      some (some d)) :
    d.new_deps = afterSet loads oracle target_branch d \
      beforeSet loads oracle base_branch d ∧
    d.removed_deps = beforeSet loads oracle base_branch d \
      afterSet loads oracle target_branch d ∧
    d.new_deps ∩ d.removed_deps = ∅ ∧
    (d.status = "A".toList → d.removed_deps = ∅) ∧
    (d.status = "D".toList → d.new_deps = ∅) := by
  unfold analyzeFile at h
  by_cases hA : r.status = "A".toList
  · rw [hA] at h
    simp at h
    obtain rfl := h
    refine ⟨?_, ?_, ?_, ?_, ?_⟩ <;>
      simp [afterSet, beforeSet, finset_sdiff_inter_sdiff]
  · rw [if_neg hA] at h
    by_cases hD : r.status = "D".toList
    · rw [hD] at h
      simp at h
      obtain rfl := h
      refine ⟨?_, ?_, ?_, ?_, ?_⟩ <;>
        simp [afterSet, beforeSet, finset_sdiff_inter_sdiff]
    · rw [if_neg hD] at h
      by_cases hM : r.status = "M".toList
      · rw [hM] at h
        simp at h
        obtain rfl := h
        refine ⟨?_, ?_, ?_, ?_, ?_⟩ <;>
          simp [afterSet, beforeSet, finset_sdiff_inter_sdiff]
      · rw [if_neg hM] at h
        by_cases hR : r.status = "R".toList
        · rw [hR] at h
          cases hold : r.old_filename with
          | none => rw [hold] at h; simp at h
          | some old =>
            rw [hold] at h
            simp at h
            obtain rfl := h
            refine ⟨?_, ?_, ?_, ?_, ?_⟩ <;>
              simp [afterSet, beforeSet, finset_sdiff_inter_sdiff]
        · rw [if_neg hR] at h
          simp at h

theorem deltaIn_ensureKey (m : LangMap) (lang : Option Str)
    (d : DependencyDelta) : deltaIn (ensureKey m lang) d ↔ deltaIn m d := by
  unfold ensureKey
  split
  · rfl
  · simp only [deltaIn, List.mem_append]
    constructor
    · rintro ⟨e, he | he, hd⟩
      · exact ⟨e, he, hd⟩
      · rw [List.mem_singleton] at he
        subst he
        exact absurd hd (List.not_mem_nil d)
    · rintro ⟨e, he, hd⟩
      exact ⟨e, Or.inl he, hd⟩

theorem deltaIn_appendDelta (m : LangMap) (lang : Option Str)
    (d0 d : DependencyDelta) (h : deltaIn (appendDelta m lang d0) d) :
    deltaIn m d ∨ d = d0 := by
  obtain ⟨e, he, hd⟩ := h
  rw [appendDelta, List.mem_map] at he
  obtain ⟨e0, he0, heq⟩ := he
  by_cases hl : e0.1 = lang
  · rw [if_pos hl] at heq
    rw [← heq] at hd
    rcases List.mem_append.mp hd with h1 | h1
    · exact Or.inl ⟨e0, he0, h1⟩
    · exact Or.inr (List.mem_singleton.mp h1)
  · rw [if_neg hl] at heq
    exact Or.inl ⟨e0, he0, heq ▸ hd⟩

theorem analyze_foldlM_deltaIn (loads : Str → Option JsonVal)
    (oracle : ContentOracle) (base_branch target_branch : Str) :
    ∀ (records : List ChangeRecord) (m0 m : LangMap),
      records.foldlM (analyzeStep loads oracle base_branch target_branch)
        m0 = some m →
      ∀ d, deltaIn m d → deltaIn m0 d ∨
        ∃ r ∈ records,
          analyzeFile loads oracle base_branch target_branch r =
            some (some d) := by
  intro records
  induction records with
  | nil =>
    intro m0 m h d hd
    obtain rfl : m0 = m := by simpa using h
    exact Or.inl hd
  | cons r rs ih =>
    intro m0 m h d hd
    rw [List.foldlM_cons] at h
    obtain ⟨m1, hstep, hrest⟩ := Option.bind_eq_some.mp h
    rcases ih m1 m hrest d hd with h1 | ⟨r2, hr2, ha⟩
    · unfold analyzeStep at hstep
      cases hf : analyzeFile loads oracle base_branch target_branch r with
      | none => rw [hf] at hstep; exact absurd hstep (by simp)
      | some od =>
        cases od with
        | none =>
          rw [hf] at hstep
          obtain rfl : _ = m1 := Option.some_injective _ hstep
          exact Or.inl ((deltaIn_ensureKey m0 r.language d).mp h1)
        | some d0 =>
          rw [hf] at hstep
          obtain rfl : _ = m1 := Option.some_injective _ hstep
          rcases deltaIn_appendDelta _ _ _ _ h1 with h2 | rfl
          · exact Or.inl ((deltaIn_ensureKey m0 r.language d).mp h2)
          · exact Or.inr ⟨r, List.mem_cons_self r rs, hf⟩
    · exact Or.inr ⟨r2, List.mem_cons_of_mem r hr2, ha⟩

/-- C1: every delta in the analyzer's output satisfies the set-algebra
identities: `new_deps = after − before`, `removed_deps = before − after`
(before empty for Added, after empty for Deleted), the two are disjoint,
`removed_deps = ∅` for every Added file and `new_deps = ∅` for every
Deleted file. -/
theorem analyze_delta_set_algebra (loads : Str → Option JsonVal)
    (oracle : ContentOracle) (base_branch target_branch : Str)
    (records : List ChangeRecord) (m : LangMap) (lang : Option Str)
    (files : List DependencyDelta) (d : DependencyDelta)
    (hm : analyze_dependencies loads oracle records base_branch
      target_branch = some m)
    (he : (lang, files) ∈ m) (hd : d ∈ files) :
    d.new_deps = afterSet loads oracle target_branch d \
      beforeSet loads oracle base_branch d ∧
    d.removed_deps = beforeSet loads oracle base_branch d \
      afterSet loads oracle target_branch d ∧
    d.new_deps ∩ d.removed_deps = ∅ ∧
    (d.status = "A".toList → d.removed_deps = ∅) ∧
    (d.status = "D".toList → d.new_deps = ∅) := by
  have hin : deltaIn m d := ⟨(lang, files), he, hd⟩
  rcases analyze_foldlM_deltaIn loads oracle base_branch target_branch
      records [] m hm d hin with h1 | ⟨r, _, ha⟩
  · exact absurd h1 (by simp [deltaIn])
  · exact analyzeFile_delta_spec loads oracle base_branch target_branch
      r d ha

/-- Witness for C1 on the concrete modified-file scenario. -/
theorem analyze_delta_set_algebra_witness :
    c1Delta.new_deps = afterSet (fun _ => none) c1Oracle ("dev".toList)
      c1Delta \ beforeSet (fun _ => none) c1Oracle ("main".toList) c1Delta ∧
    c1Delta.removed_deps = beforeSet (fun _ => none) c1Oracle
      ("main".toList) c1Delta \ afterSet (fun _ => none) c1Oracle
      ("dev".toList) c1Delta ∧
    c1Delta.new_deps ∩ c1Delta.removed_deps = ∅ ∧
    (c1Delta.status = "A".toList → c1Delta.removed_deps = ∅) ∧
    (c1Delta.status = "D".toList → c1Delta.new_deps = ∅) :=
  analyze_delta_set_algebra (fun _ => none) c1Oracle ("main".toList)
    ("dev".toList) [c1Record] [(some ("python".toList), [c1Delta])]
    (some ("python".toList)) [c1Delta] c1Delta
    (by decide) (by decide) (by decide)

/-- C5: `is_manifest_file f` is true iff `f` ends with at least one pattern
listed in the fixed manifest-pattern table, across all languages, and is
false otherwise. -/
theorem is_manifest_file_iff_ends_with_some_pattern (f : Str) :
    is_manifest_file f = true ↔
      ∃ e ∈ MANIFEST_PATTERNS, ∃ p ∈ e.2, ∃ t, t ++ p = f := by
  simp only [is_manifest_file, List.any_eq_true, List.isSuffixOf_iff_suffix]
  rfl

/-- C6: `get_language_for_file` returns the tag of the first table entry, in
table iteration order, one of whose patterns is a suffix of the filename;
it returns `none` when no pattern matches; and on the shared pattern
`build.gradle` (listed under both java and kotlin) the earlier entry, java,
wins. -/
theorem get_language_for_file_first_match (f : Str) :
    (∀ lang, get_language_for_file f = some lang ↔
      ∃ e pre post, MANIFEST_PATTERNS = pre ++ e :: post ∧ e.1 = lang ∧
        entryMatches f e ∧ ∀ e2 ∈ pre, ¬ entryMatches f e2) ∧
    (get_language_for_file f = none ↔
      ∀ e ∈ MANIFEST_PATTERNS, ¬ entryMatches f e) ∧
    get_language_for_file ("build.gradle".toList) = some ("java".toList) := by
  refine ⟨?_, ?_, by decide⟩
  · intro lang
    unfold get_language_for_file
    constructor
    · intro h
      rcases Option.map_eq_some'.mp h with ⟨e, hfind, hfst⟩
      rcases List.find?_eq_some.mp hfind with ⟨hp, pre, post, hsplit, hpre⟩
      refine ⟨e, pre, post, hsplit, hfst, ?_, ?_⟩
      · simpa [entryMatches, List.any_eq_true, List.isSuffixOf_iff_suffix]
          using hp
      · intro e2 he2
        have := hpre e2 he2
        simpa [entryMatches, List.any_eq_true, List.isSuffixOf_iff_suffix]
          using this
    · rintro ⟨e, pre, post, hsplit, hfst, hm, hpre⟩
      have hfind : MANIFEST_PATTERNS.find?
          (fun lp => lp.2.any (fun pat => pat.isSuffixOf f)) = some e := by
        apply List.find?_eq_some.mpr
        refine ⟨?_, pre, post, hsplit, ?_⟩
        · simpa [entryMatches, List.any_eq_true, List.isSuffixOf_iff_suffix]
            using hm
        · intro e2 he2
          have := hpre e2 he2
          simpa [entryMatches, List.any_eq_true, List.isSuffixOf_iff_suffix]
            using this
      simp [hfind, hfst]
  · unfold get_language_for_file
    constructor
    · intro h e he
      have hfind := Option.map_eq_none'.mp h
      have := List.find?_eq_none.mp hfind e he
      simpa [entryMatches, List.any_eq_true, List.isSuffixOf_iff_suffix]
        using this
    · intro h
      apply Option.map_eq_none'.mpr
      apply List.find?_eq_none.mpr
      intro e he
      have := h e he
      simpa [entryMatches, List.any_eq_true, List.isSuffixOf_iff_suffix]
        using this

/-- C9: the program prints the usage message to standard output and exits
with code 1 exactly when zero positional arguments remain after removing
the `--json` flag if present; the argument phase is a total function of
the arguments (it exits via the usage path, never a stack trace). -/
theorem usage_iff_zero_positional (args : List Str) :
    cliParse args = CliOutcome.usage 1 usageMsg ↔
      (stripJsonFlag args).2 = [] := by
  have e : cliParse args =
      match (stripJsonFlag args).2 with
      | [] => CliOutcome.usage 1 usageMsg
      | [t] => CliOutcome.run (stripJsonFlag args).1 t none
      | t :: b :: _ => CliOutcome.run (stripJsonFlag args).1 t (some b) := rfl
  rw [e]
  cases h : (stripJsonFlag args).2 with
  | nil => simp
  | cons t rest => cases rest <;> simp

theorem language_none_of_not_manifest (f : Str)
    (h : is_manifest_file f = false) : get_language_for_file f = none := by
  unfold get_language_for_file
  apply Option.map_eq_none'.mpr
  apply List.find?_eq_none.mpr
  intro e he
  unfold is_manifest_file at h
  rw [List.any_eq_false] at h
  exact fun hp => absurd hp (by simpa using h e he)

/-- C10: a rename line of the diff output produces a change record iff the
old or the new filename matches a manifest pattern; the record's language
is always computed from the new filename alone; hence a rename whose old
name is a manifest but whose new name matches no pattern yields a record
whose language is `none`. -/
theorem rename_line_rule (stRest old new : Str) :
    ((∃ rec, processParts [('R' :: stRest), old, new] = some (some rec)) ↔
      (is_manifest_file old || is_manifest_file new) = true) ∧
    (∀ rec, processParts [('R' :: stRest), old, new] = some (some rec) →
      rec = ⟨new, "R".toList, get_language_for_file new, some old⟩) ∧
    (is_manifest_file old = true → is_manifest_file new = false →
      processParts [('R' :: stRest), old, new] =
        some (some ⟨new, "R".toList, none, some old⟩)) := by
  have e : processParts [('R' :: stRest), old, new] =
      if is_manifest_file old || is_manifest_file new then
        some (some ⟨new, "R".toList, get_language_for_file new, some old⟩)
      else some none := rfl
  refine ⟨?_, ?_, ?_⟩
  · rw [e]
    cases h : (is_manifest_file old || is_manifest_file new) with
    | true => simp
    | false => simp
  · intro rec hrec
    rw [e] at hrec
    cases h : (is_manifest_file old || is_manifest_file new) with
    | true =>
      rw [h, if_pos rfl] at hrec
      exact (Option.some_injective _ (Option.some_injective _ hrec)).symm
    | false => rw [h] at hrec; simp at hrec
  · intro hold hnew
    rw [e, language_none_of_not_manifest new hnew]
    rw [hold, Bool.true_or, if_pos rfl]

/-- Witness for C10: renaming `requirements.txt` to `requirements.bak`
(line `R100`) yields a record with language `none`. -/
theorem rename_line_rule_witness :
    processParts ["R100".toList, "requirements.txt".toList,
      "requirements.bak".toList] =
      some (some ⟨"requirements.bak".toList, "R".toList, none,
        some ("requirements.txt".toList)⟩) :=
  (rename_line_rule ("100".toList) ("requirements.txt".toList)
    ("requirements.bak".toList)).2.2 (by decide) (by decide)

theorem assocUpdate_ne_nil {α β : Type} [DecidableEq α]
    (m : List (α × β)) (k : α) (v : β) : assocUpdate m k v ≠ [] := by
  unfold assocUpdate
  split
  case isTrue h =>
    cases m with
    | nil => simp at h
    | cons e ms => simp
  case isFalse h => simp

theorem foldl_langDictStep_ne_nil :
    ∀ (files : List DependencyDelta) (acc : List (Str × FileDeps)),
      acc ≠ [] → files.foldl langDictStep acc ≠ [] := by
  intro files
  induction files with
  | nil => intro acc h; simpa using h
  | cons f fs ih =>
    intro acc _
    rw [List.foldl_cons]
    exact ih _ (assocUpdate_ne_nil _ _ _)

theorem langDict_eq_nil_iff (files : List DependencyDelta) :
    langDict files = [] ↔ files = [] := by
  cases files with
  | nil => simp [langDict]
  | cons f fs =>
    simp only [langDict, List.foldl_cons]
    constructor
    · intro h
      exact absurd h (foldl_langDictStep_ne_nil fs _
        (assocUpdate_ne_nil _ _ _))
    · intro h; simp at h

theorem exists_mem_assocUpdate {α β : Type} [DecidableEq α]
    (m : List (α × β)) (k k2 : α) (v : β) :
    (∃ w, (k2, w) ∈ assocUpdate m k v) ↔ (∃ w, (k2, w) ∈ m) ∨ k2 = k := by
  unfold assocUpdate
  split
  case isTrue h =>
    rw [List.any_eq_true] at h
    obtain ⟨e0, he0, hk⟩ := h
    rw [decide_eq_true_eq] at hk
    constructor
    · rintro ⟨w, hw⟩
      rw [List.mem_map] at hw
      obtain ⟨e1, he1, heq⟩ := hw
      by_cases h1 : e1.1 = k
      · rw [if_pos h1] at heq
        exact Or.inr (congrArg Prod.fst heq).symm
      · rw [if_neg h1] at heq
        exact Or.inl ⟨w, heq ▸ he1⟩
    · rintro (⟨w, hw⟩ | rfl)
      · by_cases h2 : k2 = k
        · subst h2
          exact ⟨v, List.mem_map.mpr ⟨(k2, w), hw, by rw [if_pos rfl]⟩⟩
        · exact ⟨w, List.mem_map.mpr ⟨(k2, w), hw, by rw [if_neg h2]⟩⟩
      · exact ⟨v, List.mem_map.mpr ⟨e0, he0, by rw [if_pos hk]⟩⟩
  case isFalse h =>
    simp only [List.mem_append, List.mem_singleton, Prod.mk.injEq]
    constructor
    · rintro ⟨w, h1 | ⟨rfl, rfl⟩⟩
      · exact Or.inl ⟨w, h1⟩
      · exact Or.inr rfl
    · rintro (⟨w, h1⟩ | rfl)
      · exact ⟨w, Or.inl h1⟩
      · exact ⟨v, Or.inr ⟨rfl, rfl⟩⟩

theorem exists_key_foldl_jsonStep :
    ∀ (entries : LangMap) (acc : List (Option Str × List (Str × FileDeps)))
      (lang : Option Str),
      (∃ v, (lang, v) ∈ entries.foldl jsonStep acc) ↔
        (∃ v, (lang, v) ∈ acc) ∨
          ∃ files, (lang, files) ∈ entries ∧ files ≠ [] := by
  intro entries
  induction entries with
  | nil => simp
  | cons e es ih =>
    intro acc lang
    rw [List.foldl_cons, ih]
    unfold jsonStep
    by_cases hld : langDict e.2 = []
    · rw [if_neg (by simpa using hld)]
      have he2 : e.2 = [] := (langDict_eq_nil_iff e.2).mp hld
      constructor
      · rintro (h1 | h2)
        · exact Or.inl h1
        · exact Or.inr (by
            obtain ⟨files, hmem, hne⟩ := h2
            exact ⟨files, List.mem_cons_of_mem e hmem, hne⟩)
      · rintro (h1 | ⟨files, hmem, hne⟩)
        · exact Or.inl h1
        · rcases List.mem_cons.mp hmem with heq | hmem2
          · exact absurd (by rw [← heq] at he2; exact he2) hne
          · exact Or.inr ⟨files, hmem2, hne⟩
    · rw [if_pos (by simpa using hld)]
      rw [exists_mem_assocUpdate]
      constructor
      · rintro ((h1 | h2) | h3)
        · exact Or.inl h1
        · refine Or.inr ⟨e.2, ?_, fun h => hld ((langDict_eq_nil_iff e.2).mpr h)⟩
          rw [h2]
          exact List.mem_cons_self e es
        · obtain ⟨files, hmem, hne⟩ := h3
          exact Or.inr ⟨files, List.mem_cons_of_mem e hmem, hne⟩
      · rintro (h1 | ⟨files, hmem, hne⟩)
        · exact Or.inl (Or.inl h1)
        · rcases List.mem_cons.mp hmem with heq | hmem2
          · exact Or.inl (Or.inr (congrArg Prod.fst heq))
          · exact Or.inr ⟨files, hmem2, hne⟩

/-- C2 (amended): in JSON output mode a language key appears in the
rendered document iff at least one file record was collected under that
language — regardless of whether any delta is non-empty; a file with an
empty delta is rendered with empty lists, not omitted. -/
theorem renderJSON_key_iff (m : LangMap) (lang : Option Str) :
    (∃ v, (lang, v) ∈ renderJSON m) ↔
      ∃ files, (lang, files) ∈ m ∧ files ≠ [] := by
  rw [renderJSON, exists_key_foldl_jsonStep]
  simp

/-- Counterexample to C2 as stated: a modified manifest with identical
content on both branches yields a language all of whose files have empty
`new_deps` and `removed_deps`, yet the JSON render still contains the
language key (with the file mapped to empty lists) instead of omitting
it. -/
theorem renderJSON_counterexample :
    analyze_dependencies (fun _ => none)
      (fun _ _ => some ("foo==1.0\n".toList))
      [⟨"requirements.txt".toList, "M".toList, some ("python".toList), none⟩]
      ("main".toList) ("dev".toList) = some c2Map ∧
    renderJSON c2Map =
      [(some ("python".toList),
        [("requirements.txt".toList, ⟨[], []⟩)])] := by
  constructor
  · decide
  · simp [renderJSON, jsonStep, langDict, langDictStep, assocUpdate,
      sortedNames, c2Map, Finset.sort_empty]

theorem analyzeFile_ne_none (loads : Str → Option JsonVal)
    (oracle : ContentOracle) (base_branch target_branch : Str)
    (r : ChangeRecord) (h : r.status = "R".toList → r.old_filename ≠ none) :
    analyzeFile loads oracle base_branch target_branch r ≠ none := by
  unfold analyzeFile
  by_cases hA : r.status = "A".toList
  · rw [if_pos hA]; simp
  · rw [if_neg hA]
    by_cases hD : r.status = "D".toList
    · rw [if_pos hD]; simp
    · rw [if_neg hD]
      by_cases hM : r.status = "M".toList
      · rw [if_pos hM]; simp
      · rw [if_neg hM]
        by_cases hR : r.status = "R".toList
        · rw [if_pos hR]
          cases hold : r.old_filename with
          | none => exact absurd hold (h hR)
          | some old => simp
        · rw [if_neg hR]; simp

theorem analyze_dependencies_some (loads : Str → Option JsonVal)
    (oracle : ContentOracle) (base_branch target_branch : Str) :
    ∀ (records : List ChangeRecord) (acc : LangMap),
      (∀ r ∈ records, r.status = "R".toList → r.old_filename ≠ none) →
      ∃ m, records.foldlM
        (analyzeStep loads oracle base_branch target_branch) acc = some m := by
  intro records
  induction records with
  | nil => exact fun acc _ => ⟨acc, rfl⟩
  | cons r rs ih =>
    intro acc hr
    cases hf : analyzeFile loads oracle base_branch target_branch r with
    | none =>
      exact absurd hf (analyzeFile_ne_none loads oracle base_branch
        target_branch r (hr r (List.mem_cons_self r rs)))
    | some od =>
      cases od with
      | none =>
        have hstep : analyzeStep loads oracle base_branch target_branch
            acc r = some (ensureKey acc r.language) := by
          unfold analyzeStep
          rw [hf]
        obtain ⟨m, hm⟩ := ih (ensureKey acc r.language)
          (fun r2 h2 => hr r2 (List.mem_cons_of_mem r h2))
        refine ⟨m, ?_⟩
        rw [List.foldlM_cons, hstep]
        exact hm
      | some d =>
        have hstep : analyzeStep loads oracle base_branch target_branch
            acc r =
            some (appendDelta (ensureKey acc r.language) r.language d) := by
          unfold analyzeStep
          rw [hf]
        obtain ⟨m, hm⟩ := ih
          (appendDelta (ensureKey acc r.language) r.language d)
          (fun r2 h2 => hr r2 (List.mem_cons_of_mem r h2))
        refine ⟨m, ?_⟩
        rw [List.foldlM_cons, hstep]
        exact hm

theorem analyzeFile_R_old (loads : Str → Option JsonVal)
    (oracle : ContentOracle) (base_branch target_branch : Str)
    (r : ChangeRecord) (d : DependencyDelta)
    (h : analyzeFile loads oracle base_branch target_branch r =
      some (some d)) :
    d.status = "R".toList → ∃ old, d.old_filename = some old := by
  unfold analyzeFile at h
  by_cases hA : r.status = "A".toList
  · rw [hA] at h
    simp at h
    obtain rfl := h
    intro hc
    simp at hc
  · rw [if_neg hA] at h
    by_cases hD : r.status = "D".toList
    · rw [hD] at h
      simp at h
      obtain rfl := h
      intro hc
      simp at hc
    · rw [if_neg hD] at h
      by_cases hM : r.status = "M".toList
      · rw [hM] at h
        simp at h
        obtain rfl := h
        intro hc
        simp at hc
      · rw [if_neg hM] at h
        by_cases hR : r.status = "R".toList
        · rw [hR] at h
          cases hold : r.old_filename with
          | none => rw [hold] at h; simp at h
          | some old =>
            rw [hold] at h
            simp at h
            obtain rfl := h
            exact fun _ => ⟨old, rfl⟩
        · rw [if_neg hR] at h
          simp at h

theorem mapM_some_of_forall {α β : Type} (f : α → Option β) :
    ∀ (l : List α), (∀ x ∈ l, ∃ y, f x = some y) →
      ∃ ys, l.mapM f = some ys := by
  intro l
  induction l with
  | nil => exact fun _ => ⟨[], rfl⟩
  | cons x xs ih =>
    intro h
    obtain ⟨y, hy⟩ := h x (List.mem_cons_self x xs)
    obtain ⟨ys, hys⟩ := ih (fun z hz => h z (List.mem_cons_of_mem x hz))
    refine ⟨y :: ys, ?_⟩
    rw [List.mapM_cons, hy, hys]
    rfl

theorem mem_insertSorted {α : Type} (le : α → α → Bool) (x a : α) :
    ∀ (l : List α), a ∈ insertSorted le x l ↔ a = x ∨ a ∈ l := by
  intro l
  induction l with
  | nil => simp [insertSorted]
  | cons y ys ih =>
    unfold insertSorted
    by_cases hle : le x y = true
    · rw [if_pos hle]
      simp
    · rw [if_neg hle]
      simp only [List.mem_cons, ih]
      tauto

theorem mem_sortBy {α : Type} (le : α → α → Bool) (a : α) :
    ∀ (l : List α), a ∈ sortBy le l ↔ a ∈ l := by
  intro l
  induction l with
  | nil => simp [sortBy]
  | cons x xs ih =>
    unfold sortBy
    rw [mem_insertSorted, ih]
    simp

theorem renderLangBlock_some (e : Option Str × List DependencyDelta)
    (hlang : e.1 ≠ none)
    (hfiles : ∀ fi ∈ e.2, fi.status = "R".toList → fi.old_filename ≠ none) :
    ∃ lines, renderLangBlock e = some lines := by
  unfold renderLangBlock
  by_cases h2 : e.2 = []
  · rw [if_pos h2]; exact ⟨[], rfl⟩
  · rw [if_neg h2]
    obtain ⟨lang, hl⟩ := Option.ne_none_iff_exists'.mp hlang
    rw [hl]
    have hblocks : ∀ fi ∈ e.2, ∃ b, renderFileBlock fi = some b := by
      intro fi hfi
      unfold renderFileBlock renderStatusLine
      by_cases hR : fi.status = "R".toList
      · rw [if_pos hR]
        cases hold : fi.old_filename with
        | none => exact absurd hold (hfiles fi hfi hR)
        | some old => exact ⟨_, rfl⟩
      · rw [if_neg hR]
        exact ⟨_, rfl⟩
    obtain ⟨ys, hys⟩ := mapM_some_of_forall renderFileBlock e.2 hblocks
    show ∃ lines, (e.2.mapM renderFileBlock).map (fun blocks =>
      (('\n' :: pyUpper lang) ++ ":".toList) :: blocks.flatten) = some lines
    rw [hys]
    exact ⟨_, rfl⟩

theorem renderText_some (target_branch base_branch : Str) (m : LangMap)
    (hk : ∀ e ∈ m, e.1 ≠ none)
    (hfi : ∀ e ∈ m, ∀ fi ∈ e.2,
      fi.status = "R".toList → fi.old_filename ≠ none) :
    ∃ lines, renderText target_branch base_branch m = some lines := by
  unfold renderText
  rw [if_neg (fun hcrash => by
    obtain ⟨_, hany⟩ := hcrash
    rw [List.any_eq_true] at hany
    obtain ⟨e, he, hnone⟩ := hany
    rw [decide_eq_true_eq] at hnone
    exact hk e he hnone)]
  obtain ⟨ys, hys⟩ := mapM_some_of_forall renderLangBlock (sortBy itemLE m)
    (fun e he => renderLangBlock_some e
      (hk e ((mem_sortBy itemLE e m).mp he))
      (hfi e ((mem_sortBy itemLE e m).mp he)))
  rw [hys]
  exact ⟨_, rfl⟩

/-- C7 (amended): for every list of classified changed files whose rename
records carry their old filename, and every branch pair and content
oracle, the analysis succeeds (no exception escapes it; every per-file
failure was degraded to an empty set inside the parser), and the
text-mode render also completes — provided every collected language tag is
present.  (The JSON render is embedded as a total function: source lines
225-237 contain no raising operation.)  A rename record whose language is
`None` is the one exception, exhibited separately: text mode then
raises. -/
theorem analysis_never_raises (loads : Str → Option JsonVal)
    (oracle : ContentOracle) (base_branch target_branch : Str)
    (records : List ChangeRecord)
    (hR : ∀ r ∈ records, r.status = "R".toList → r.old_filename ≠ none) :
    ∃ m, analyze_dependencies loads oracle records base_branch
        target_branch = some m ∧
      ((∀ e ∈ m, e.1 ≠ none) →
        ∃ lines, renderText target_branch base_branch m = some lines) := by
  obtain ⟨m, hm⟩ := analyze_dependencies_some loads oracle base_branch
    target_branch records [] hR
  refine ⟨m, hm, fun hk => renderText_some target_branch base_branch m hk ?_⟩
  intro e he fi hfi hRst
  have hin : deltaIn m fi := ⟨e, he, hfi⟩
  rcases analyze_foldlM_deltaIn loads oracle base_branch target_branch
      records [] m hm fi hin with h1 | ⟨r, _, ha⟩
  · exact absurd h1 (by simp [deltaIn])
  · obtain ⟨old, hold⟩ := analyzeFile_R_old loads oracle base_branch
      target_branch r fi ha hRst
    simp [hold]

/-- Witness for C7 (amended) at a concrete record list. -/
theorem analysis_never_raises_witness :
    ∃ m, analyze_dependencies (fun _ => none) (fun _ _ => none)
        [⟨"requirements.txt".toList, "M".toList, some ("python".toList),
          none⟩] ("main".toList) ("dev".toList) = some m ∧
      ((∀ e ∈ m, e.1 ≠ none) →
        ∃ lines, renderText ("dev".toList) ("main".toList) m =
          some lines) :=
  analysis_never_raises (fun _ => none) (fun _ _ => none) ("main".toList)
    ("dev".toList)
    [⟨"requirements.txt".toList, "M".toList, some ("python".toList), none⟩]
    (by decide)

/-- Counterexample to C7 as stated: a rename of `requirements.txt` to the
non-manifest name `requirements.bak` is classified (old name matches), its
analysis succeeds with language `None`, and the text render then raises
(`None.upper()`) — so "never raises for every classified input and either
render mode" is false. -/
theorem render_crash_counterexample :
    processParts ["R100".toList, "requirements.txt".toList,
      "requirements.bak".toList] =
      some (some ⟨"requirements.bak".toList, "R".toList, none,
        some ("requirements.txt".toList)⟩) ∧
    analyze_dependencies (fun _ => none) (fun _ _ => none)
      [⟨"requirements.bak".toList, "R".toList, none,
        some ("requirements.txt".toList)⟩]
      ("main".toList) ("dev".toList) =
      some [(none, [⟨"requirements.bak".toList, "R".toList,
        some ("requirements.txt".toList), ∅, ∅⟩])] ∧
    renderText ("dev".toList) ("main".toList)
      [(none, [⟨"requirements.bak".toList, "R".toList,
        some ("requirements.txt".toList), ∅, ∅⟩])] = none := by
  refine ⟨by decide, by decide, ?_⟩
  rfl

end DepDetect

